import Mathlib

/-!
# grpc-lesson: the calculator service handlers and the logging interceptors

A shallow embedding of `cmd/grpc-lesson/serve.go` and
`cmd/grpc-lesson/interceptors.go`.

* `int32` values are mathematical integers, reduced with `wrap32` wherever the
  Go operation can leave the int32 range.
* A server stream is the list of messages the handler passes to `Send`; a
  client stream is the list of results that successive `Recv` calls return.
  Where the handler tests the result of `Send`, that result is an input.
* Loops whose termination depends on the data carry an explicit fuel argument.
-/

namespace GrpcLesson

/-! ## Machine integers -/

/-- Two's-complement reduction of an integer into the int32 range. -/
def wrap32 (x : Int) : Int := (x + 2147483648) % 4294967296 - 2147483648

/-- Two's-complement reduction of an integer into the int64 range (Go `int` on
a 64-bit platform). -/
def wrap64 (x : Int) : Int :=
  (x + 9223372036854775808) % 18446744073709551616 - 9223372036854775808

/-- The int32 range. -/
def isInt32 (x : Int) : Prop := -2147483648 ≤ x ∧ x ≤ 2147483647

instance (x : Int) : Decidable (isInt32 x) := by
  unfold isInt32; exact inferInstance

/-! ## Outcomes of a handler -/

/-- How a run of a server-streaming handler ends: `returned sent` is a return
with a nil error after the messages `sent` were passed to `stream.Send`;
`panicked` is a Go run-time panic (integer division by zero); `outOfFuel` means
the loop was still running when the fuel was used up. -/
inductive Outcome (α : Type) where
  | returned (sent : List α)
  | panicked (sent : List α)
  | outOfFuel
  deriving DecidableEq, Repr

/-! ## `server.Decompose` (serve.go, lines 65-86) -/

/-- The local variables of `Decompose` together with the messages sent so far. -/
structure DecomposeState where
  number : Int
  factor : Int
  sent : List Int
  deriving DecidableEq, Repr

/-- The result of one evaluation of the loop condition and the loop body. -/
inductive LoopStep where
  | next (s : DecomposeState)
  | exit
  | divideByZero
  deriving DecidableEq, Repr

/-- One iteration of `for number > 1 { ... }`: `number % factor` and
`number / factor` are Go's truncated operations, `factor++` wraps in int32. -/
def DecomposeBody (s : DecomposeState) : LoopStep :=
  if s.number > 1 then
    if s.factor = 0 then .divideByZero
    else if Int.tmod s.number s.factor = 0 then
      .next { number := wrap32 (Int.tdiv s.number s.factor),
              factor := s.factor,
              sent := s.sent ++ [s.factor] }
    else
      .next { number := s.number, factor := wrap32 (s.factor + 1), sent := s.sent }
  else .exit

/-- The loop of `Decompose`, run for at most `fuel` evaluations of its condition. -/
def DecomposeLoop : Nat → DecomposeState → Outcome Int
  | 0, _ => .outOfFuel
  | fuel + 1, s =>
    match DecomposeBody s with
    | .next t => DecomposeLoop fuel t
    | .exit => .returned s.sent
    | .divideByZero => .panicked s.sent

/-- The state in which `Decompose` enters its loop: `number := req.GetNumber()`,
`factor := int32(2)`, nothing sent. -/
def DecomposeInit (n : Int) : DecomposeState :=
  { number := n, factor := 2, sent := [] }

/-- The handler `Decompose` on request number `n`. -/
def Decompose (fuel : Nat) (n : Int) : Outcome Int :=
  DecomposeLoop fuel (DecomposeInit n)

/-- The state at the start of iteration `k` of the loop, when the loop is still
running there. -/
def DecomposeIter : Nat → DecomposeState → Option DecomposeState
  | 0, s => some s
  | k + 1, s =>
    match DecomposeBody s with
    | .next t => DecomposeIter k t
    | _ => none

/-- The loop invariant of `Decompose` on natural numbers `m` (the remaining
number) and `f` (the trial factor): no number in `[2, f)` divides `m`. -/
structure DecomposeInv (m f : ℕ) : Prop where
  one_le : 1 ≤ m
  two_le : 2 ≤ f
  factor_le : 1 < m → f ≤ m
  lt_bound : m < 2147483648
  no_smaller : ∀ d, 2 ≤ d → d < f → ¬ d ∣ m

/-! ## Contexts and gRPC statuses -/

/-- The value of `ctx.Err()`: nil, `context.Canceled` or
`context.DeadlineExceeded`. -/
inductive ContextErr where
  | nil
  | Canceled
  | DeadlineExceeded
  deriving DecidableEq, Repr

/-- The gRPC status codes the handlers use. -/
inductive Code where
  | OK
  | Canceled
  | DeadlineExceeded
  deriving DecidableEq, Repr

/-- A non-nil error built by `status.Error(code, msg)`. -/
structure Status where
  code : Code
  msg : String
  deriving DecidableEq, Repr

/-! ## `server.TimesTen` (serve.go, lines 50-63) -/

/-- Modelled from the spec: the generated record `proto.Message` (the package
`proto/gen/proto` is not among the sources); the spec's property of `TimesTen`
ranges over int32, which is taken as the type of the field `Say`. -/
structure Message where
  Say : Int
  deriving DecidableEq, Repr

/-- Modelled from the spec: the generated record `proto.Response` (the package
`proto/gen/proto` is not among the sources), with the int32 field `Say`. -/
structure Response where
  Say : Int
  deriving DecidableEq, Repr

/-- The handler `TimesTen`: `result := number * 10` in int32, returned with a nil
error. The context is not consulted. -/
def TimesTen (_ctx : ContextErr) (req : Message) : Option Response × Option Status :=
  let number := req.Say
  let result := wrap32 (number * 10)
  (some { Say := result }, none)

/-! ## `server.CalculateWithDeadline` (serve.go, lines 143-163) -/

/-- The request record `proto.CalculateWithDeadlineRequest`; the numeric type
`α` of its fields is declared in the generated package, which is not among the
sources. -/
structure CalculateWithDeadlineRequest (α : Type) where
  A : α
  B : α
  deriving DecidableEq, Repr

/-- The response record `proto.CalculateWithDeadlineResponse`. -/
structure CalculateWithDeadlineResponse (α : Type) where
  Result : α
  deriving DecidableEq, Repr

/-- Addition of two int32 values. -/
def add32 (a b : Int) : Int := wrap32 (a + b)

/-- The handler `CalculateWithDeadline`. `ctxErr` is what `ctx.Err()` returns
after `time.Sleep(1 * time.Second)`; `add` is Go's `+` at the type of the
fields. -/
def CalculateWithDeadline {α : Type} (add : α → α → α) (ctxErr : ContextErr)
    (req : CalculateWithDeadlineRequest α) :
    Option (CalculateWithDeadlineResponse α) × Option Status :=
  let a := req.A
  let b := req.B
  let result := add a b
  if ctxErr = ContextErr.Canceled then
    (none, some { code := Code.Canceled, msg := "The client has canceled the request" })
  else
    (some { Result := result }, none)

/-! ## Client streams -/

/-- What one call of `stream.Recv()` returns: a request, `io.EOF`, or another
error. -/
inductive RecvResult (α : Type) where
  | msg (a : α)
  | eof
  | err
  deriving DecidableEq, Repr

/-- How a handler that reads a client stream ends on a given list of `Recv`
results: `returned sent` is a return after the messages `sent` were passed to
`Send`, `fatal sent` is `log.Fatalf` on a read error or on a failing `Send`, and
`waiting sent` means that the list is used up and the handler is inside the
next `Recv`. -/
inductive StreamOutcome (α : Type) where
  | returned (sent : List α)
  | fatal (sent : List α)
  | waiting (sent : List α)
  deriving DecidableEq, Repr

/-! ## `server.FindMaximum` (serve.go, lines 112-141) -/

/-- The loop of `FindMaximum` with its local `max` and the responses passed to
`stream.Send` so far. `sendErr i` tells whether call number `i` (from 0) of
`stream.Send` returns an error; on such an error the handler ends in
`log.Fatalf`. -/
def FindMaximumLoop (sendErr : Nat → Bool) :
    List (RecvResult Int) → Int → List Int → StreamOutcome Int
  | [], _, sent => .waiting sent
  | .eof :: _, _, sent => .returned sent
  | .err :: _, _, sent => .fatal sent
  | .msg number :: rest, max, sent =>
    if number > max then
      if sendErr sent.length then .fatal (sent ++ [number])
      else FindMaximumLoop sendErr rest number (sent ++ [number])
    else FindMaximumLoop sendErr rest max sent

/-- The handler `FindMaximum`: `max := int32(0)`, then the loop. -/
def FindMaximum (sendErr : Nat → Bool) (recvs : List (RecvResult Int)) : StreamOutcome Int :=
  FindMaximumLoop sendErr recvs 0 []

/-- The client stream that delivers the numbers `xs` and is then closed. -/
def closedStream {α : Type} (xs : List α) : List (RecvResult α) :=
  xs.map RecvResult.msg ++ [RecvResult.eof]

/-- Follows the spec's words: the new running maxima of an input, that is the
elements strictly greater than every element before them (`earlier` holds the
elements already seen). -/
def newRunningMaxima : List Int → List Int → List Int
  | _, [] => []
  | earlier, x :: rest =>
    (if earlier.all (fun y => decide (y < x)) then [x] else []) ++
      newRunningMaxima (earlier ++ [x]) rest

/-- Follows the words of the behaviour found in the code: the elements that are
strictly greater than 0 and strictly greater than every element before them
(`earlier` holds the elements already seen). -/
def positiveRunningMaxima : List Int → List Int → List Int
  | _, [] => []
  | earlier, x :: rest =>
    (if decide (0 < x) && earlier.all (fun y => decide (y < x)) then [x] else []) ++
      positiveRunningMaxima (earlier ++ [x]) rest

/-! ## `float32` -/

/-- The values of Go's `float32` (IEEE 754 binary32): NaN (payloads are not
distinguished), the two infinities, the two zeros, and `fin q` for a finite
non-zero number with the rational value `q`. -/
inductive Float32 where
  | nan
  | inf (neg : Bool)
  | zero (neg : Bool)
  | fin (q : ℚ)
  deriving DecidableEq, Repr

/-- A rational is a binary32 number when it is `m * 2 ^ e` with a significand
below `2 ^ 24` and an exponent between -149 and 104. -/
def isFloat32 (q : ℚ) : Prop :=
  ∃ m e : Int, |m| < 2 ^ 24 ∧ -149 ≤ e ∧ e ≤ 104 ∧ q = (m : ℚ) * (2 : ℚ) ^ e

/-- Rounding of a rational to the nearest integer, ties to the even one. -/
def roundHalfEven (x : ℚ) : Int :=
  let f := ⌊x⌋
  let r := x - f
  if r < 1 / 2 then f
  else if 1 / 2 < r then f + 1
  else if f % 2 = 0 then f else f + 1

/-- IEEE 754 round-to-nearest-even of an exact result `q` to binary32: the unit
in the last place is `2 ^ (e - 23)` for the binade `e` of `|q|`, not below the
subnormal unit `2 ^ (-149)`; results from `2 ^ 128` on overflow to an infinity,
results that round to nothing become a zero with the sign of `q`. -/
def round32 (q : ℚ) : Float32 :=
  let a := |q|
  let e := max (Int.log 2 a) (-126)
  let ulp : ℚ := (2 : ℚ) ^ (e - 23)
  let m := roundHalfEven (a / ulp)
  let v : ℚ := (m : ℚ) * ulp
  if m = 0 then .zero (decide (q < 0))
  else if (2 : ℚ) ^ (128 : ℕ) ≤ v then .inf (decide (q < 0))
  else .fin (if q < 0 then -v else v)

/-- The float32 with the exact value `q`, for a binary32 number `q`. -/
def Float32.ofExact (q : ℚ) : Float32 :=
  if q = 0 then .zero false else .fin q

/-- Go's `+` on float32. -/
def Float32.add : Float32 → Float32 → Float32
  | .nan, _ => .nan
  | _, .nan => .nan
  | .inf a, .inf b => if a = b then .inf a else .nan
  | .inf a, _ => .inf a
  | _, .inf b => .inf b
  | .zero a, .zero b => .zero (a && b)
  | .zero _, .fin q => .fin q
  | .fin p, .zero _ => .fin p
  | .fin p, .fin q => if p + q = 0 then .zero false else round32 (p + q)

/-- Go's `/` on float32; a division by zero gives an infinity or NaN. -/
def Float32.div : Float32 → Float32 → Float32
  | .nan, _ => .nan
  | _, .nan => .nan
  | .inf _, .inf _ => .nan
  | .inf a, .zero b => .inf (xor a b)
  | .inf a, .fin q => .inf (xor a (decide (q < 0)))
  | .zero a, .inf b => .zero (xor a b)
  | .fin p, .inf b => .zero (xor (decide (p < 0)) b)
  | .zero _, .zero _ => .nan
  | .zero a, .fin q => .zero (xor a (decide (q < 0)))
  | .fin p, .zero b => .inf (xor (decide (p < 0)) b)
  | .fin p, .fin q => round32 (p / q)

/-- Go's conversion `float32(count)` of an integer. -/
def Float32.ofInt (k : Int) : Float32 :=
  if k = 0 then .zero false else round32 (k : ℚ)

/-! ## `server.ComputeAverage` (serve.go, lines 88-110) -/

/-- The loop of `ComputeAverage` with its locals `sum` (float32) and `count`
(Go `int`, 64 bits). Nothing is sent before `io.EOF`; at `io.EOF` the handler
returns what `SendAndClose` of the one response returns. -/
def ComputeAverageLoop : List (RecvResult Float32) → Float32 → Int → StreamOutcome Float32
  | [], _, _ => .waiting []
  | .eof :: _, sum, count =>
    let average := Float32.div sum (Float32.ofInt count)
    .returned [average]
  | .err :: _, _, _ => .fatal []
  | .msg number :: rest, sum, count =>
    ComputeAverageLoop rest (Float32.add sum number) (wrap64 (count + 1))

/-- The handler `ComputeAverage`: `sum := float32(0)`, `count := 0`, then the
loop. -/
def ComputeAverage (recvs : List (RecvResult Float32)) : StreamOutcome Float32 :=
  ComputeAverageLoop recvs (.zero false) 0

/-- The sums `acc + q₁`, `acc + q₁ + q₂`, ... taken in arrival order. -/
def runningSums : ℚ → List ℚ → List ℚ
  | _, [] => []
  | acc, q :: qs => (acc + q) :: runningSums (acc + q) qs

/-! ## Interceptors (interceptors.go) and `customServerStream` (serve.go, lines 20-26) -/

/-- What an interceptor does in order: lines written to standard output and
invocations of the wrapped handler with their two arguments. -/
inductive Effect (κ ρ : Type) where
  | print (line : String)
  | invoke (a : κ) (b : ρ)

/-- The handler invocations among the effects, in order. -/
def invocations {κ ρ : Type} : List (Effect κ ρ) → List (κ × ρ)
  | [] => []
  | .print _ :: rest => invocations rest
  | .invoke a b :: rest => (a, b) :: invocations rest

/-- The unary interceptor. The handler is a state transformer on the state `σ` of
everything it can touch; `fmtReq` and `fmtResp` stand for the `%v` formatting
of the request and of the response. -/
def LoggingInterceptor {Ctx Req Info Resp Err σ : Type} (fmtReq : Req → String)
    (fmtResp : Resp → String) (ctx : Ctx) (req : Req) (_info : Info)
    (handler : Ctx → Req → σ → (Resp × Err) × σ) (s : σ) :
    ((Resp × Err) × σ) × List (Effect Ctx Req) :=
  let out := handler ctx req s
  (out,
    [.print "\nHit interceptor\n",
     .print ("Interceptor Request: " ++ fmtReq req ++ "\n"),
     .invoke ctx req,
     .print ("Interceptor Response: " ++ fmtResp out.1.1 ++ "\n")])

/-- The interface `grpc.ServerStream` as a record of its methods, each a state
transformer; `RecvMsg` takes the message to fill and gives it back filled. -/
structure ServerStream (Ctx MD Msg Err σ : Type) where
  SetHeader : MD → σ → Err × σ
  SendHeader : MD → σ → Err × σ
  SetTrailer : MD → σ → σ
  Context : Ctx
  SendMsg : Msg → σ → Err × σ
  RecvMsg : Msg → σ → (Msg × Err) × σ

/-- The wrapper `customServerStream`: the embedded stream supplies every
method, and `RecvMsg` is overridden by a call of the embedded `RecvMsg`. -/
def customServerStream {Ctx MD Msg Err σ : Type} (stream : ServerStream Ctx MD Msg Err σ) :
    ServerStream Ctx MD Msg Err σ :=
  { SetHeader := stream.SetHeader
    SendHeader := stream.SendHeader
    SetTrailer := stream.SetTrailer
    Context := stream.Context
    SendMsg := stream.SendMsg
    RecvMsg := fun m s => stream.RecvMsg m s }

/-- The stream interceptor; `fmtInfo` stands for the `%v` formatting of the
call information. -/
def LoggingStreamInterceptor {Srv Info Ctx MD Msg Err σ : Type} (fmtInfo : Info → String)
    (srv : Srv) (stream : ServerStream Ctx MD Msg Err σ) (info : Info)
    (handler : Srv → ServerStream Ctx MD Msg Err σ → σ → Err × σ) (s : σ) :
    (Err × σ) × List (Effect Srv (ServerStream Ctx MD Msg Err σ)) :=
  let customStream := customServerStream stream
  let err := handler srv customStream s
  (err,
    [.print ("\nHitting stream interceptor: " ++ fmtInfo info ++ "\n"),
     .invoke srv customStream,
     .print ("Interceptor Streaming Response: " ++ fmtInfo info ++ "\n")])

/-! ## Proofs: machine integers -/

theorem wrap32_of_isInt32 {x : Int} (h : isInt32 x) : wrap32 x = x := by
  unfold isInt32 at h
  unfold wrap32
  omega

theorem isInt32_wrap32 (x : Int) : isInt32 (wrap32 x) := by
  unfold isInt32 wrap32
  omega

/-! ## Proofs: `Decompose` -/

theorem DecomposeInv_init {n : ℕ} (h1 : 1 ≤ n) (h2 : n < 2147483648) : DecomposeInv n 2 :=
  ⟨h1, le_refl 2, fun h => h, h2, fun d hd hlt => by omega⟩

theorem DecomposeBody_exit (s : DecomposeState) (h : s.number ≤ 1) :
    DecomposeBody s = .exit := by
  unfold DecomposeBody
  rw [if_neg (by omega)]

theorem DecomposeBody_divide (m f : ℕ) (sent : List Int) (hm : 1 < m) (hf : 2 ≤ f)
    (hlt : m < 2147483648) (hdvd : f ∣ m) :
    DecomposeBody ⟨m, f, sent⟩ = .next ⟨((m / f : ℕ) : Int), f, sent ++ [(f : Int)]⟩ := by
  have hmod : Int.tmod (m : Int) (f : Int) = 0 := by
    rw [← Int.ofNat_tmod, Nat.mod_eq_zero_of_dvd hdvd]; rfl
  have hdiv : wrap32 (Int.tdiv (m : Int) (f : Int)) = ((m / f : ℕ) : Int) := by
    rw [← Int.ofNat_tdiv]
    apply wrap32_of_isInt32
    have hq : m / f ≤ m := Nat.div_le_self m f
    generalize m / f = q at hq
    unfold isInt32
    omega
  unfold DecomposeBody
  simp only []
  rw [if_pos (by omega), if_neg (by omega), if_pos hmod, hdiv]

theorem DecomposeBody_increment (m f : ℕ) (sent : List Int) (hm : 1 < m) (hf : 2 ≤ f)
    (hlt : f + 1 < 2147483648) (hdvd : ¬ f ∣ m) :
    DecomposeBody ⟨m, f, sent⟩ = .next ⟨m, ((f + 1 : ℕ) : Int), sent⟩ := by
  have hmod : Int.tmod (m : Int) (f : Int) ≠ 0 := by
    rw [← Int.ofNat_tmod]
    intro h
    exact hdvd (Nat.dvd_of_mod_eq_zero (by exact_mod_cast h))
  have hinc : wrap32 ((f : Int) + 1) = ((f + 1 : ℕ) : Int) := by
    rw [wrap32_of_isInt32 (by unfold isInt32; omega)]
    push_cast; rfl
  unfold DecomposeBody
  simp only []
  rw [if_pos (by omega), if_neg (by omega), if_neg hmod, hinc]

/-- Under the invariant a trial factor that divides the number is its least
prime factor. -/
theorem DecomposeInv.prime_of_dvd {m f : ℕ} (h : DecomposeInv m f) (hm : 1 < m) (hdvd : f ∣ m) :
    f.Prime := by
  have hmin : m.minFac = f := by
    have hle : m.minFac ≤ f := Nat.minFac_le_of_dvd h.two_le hdvd
    have hp : m.minFac.Prime := Nat.minFac_prime (by omega)
    by_contra hne
    exact h.no_smaller m.minFac hp.two_le (by omega) (Nat.minFac_dvd m)
  rw [← hmin]
  exact Nat.minFac_prime (by omega)

/-- The invariant survives the division branch. -/
theorem DecomposeInv.divide {m f : ℕ} (h : DecomposeInv m f) (hm : 1 < m) (hdvd : f ∣ m) :
    DecomposeInv (m / f) f := by
  have hf0 : 0 < f := by have := h.two_le; omega
  have hpos : 1 ≤ m / f := Nat.div_pos (h.factor_le hm) hf0
  have hsub : m / f ∣ m := Nat.div_dvd_of_dvd hdvd
  refine ⟨hpos, h.two_le, ?_, lt_of_le_of_lt (Nat.div_le_self m f) h.lt_bound, ?_⟩
  · intro hq
    by_contra hlt
    have hp : (m / f).minFac.Prime := Nat.minFac_prime (by omega)
    have hle : (m / f).minFac ≤ m / f := Nat.minFac_le (by omega)
    exact h.no_smaller (m / f).minFac hp.two_le (by omega)
      (dvd_trans (Nat.minFac_dvd _) hsub)
  · intro d hd hlt hdd
    exact h.no_smaller d hd hlt (dvd_trans hdd hsub)

/-- The invariant survives the increment branch, and the incremented factor
does not exceed the number. -/
theorem DecomposeInv.increment {m f : ℕ} (h : DecomposeInv m f) (hm : 1 < m) (hdvd : ¬ f ∣ m) :
    f + 1 ≤ m ∧ DecomposeInv m (f + 1) := by
  have hle := h.factor_le hm
  have hne : f ≠ m := fun e => hdvd (e ▸ dvd_refl f)
  refine ⟨by omega, h.one_le, by have := h.two_le; omega, fun _ => by omega, h.lt_bound, ?_⟩
  intro d hd hlt hdd
  rcases Nat.lt_or_ge d f with h1 | h1
  · exact h.no_smaller d hd h1 hdd
  · have : d = f := by omega
    exact hdvd (this ▸ hdd)


/-- The loop of `Decompose`, started in a state that satisfies the invariant and
given enough fuel, returns after sending a non-decreasing list of primes, none
below the trial factor, whose product is the number. -/
theorem DecomposeLoop_spec (fuel : ℕ) : ∀ (m f : ℕ) (sent : List Int), DecomposeInv m f →
    2 * m + 1 ≤ fuel + min f m →
    ∃ out : List ℕ,
      DecomposeLoop fuel ⟨m, f, sent⟩ = .returned (sent ++ out.map (fun p : ℕ => (p : Int))) ∧
      out.prod = m ∧ (∀ p ∈ out, p.Prime) ∧ List.Chain (· ≤ ·) f out := by
  induction fuel with
  | zero =>
    intro m f sent h hfuel
    have := h.one_le
    omega
  | succ fuel ih =>
    intro m f sent h hfuel
    have h2 := h.two_le
    rcases Nat.eq_or_lt_of_le h.one_le with hm | hm
    · refine ⟨[], ?_, by simpa using hm, by simp, List.Chain.nil⟩
      have hexit : DecomposeBody ⟨(m : Int), (f : Int), sent⟩ = .exit :=
        DecomposeBody_exit _ (by simp only []; omega)
      simp [DecomposeLoop, hexit]
    · have hfm := h.factor_le hm
      by_cases hdvd : f ∣ m
      · have hinv := h.divide hm hdvd
        have hq : m / f * f = m := Nat.div_mul_cancel hdvd
        have hq2 : 2 * (m / f) ≤ m := by
          calc 2 * (m / f) = m / f * 2 := Nat.mul_comm _ _
            _ ≤ m / f * f := Nat.mul_le_mul_left _ h2
            _ = m := hq
        have hfuel2 : 2 * (m / f) + 1 ≤ fuel + min f (m / f) := by
          have h1 := hinv.one_le
          rcases Nat.eq_or_lt_of_le h1 with e | e
          · rw [← e]; omega
          · have := hinv.factor_le e
            omega
        obtain ⟨out, hrun, hprod, hprime, hchain⟩ := ih (m / f) f (sent ++ [(f : Int)]) hinv hfuel2
        refine ⟨f :: out, ?_, ?_, ?_, ?_⟩
        · simp only [DecomposeLoop, DecomposeBody_divide m f sent hm h2 h.lt_bound hdvd]
          rw [hrun]
          simp
        · rw [List.prod_cons, hprod, Nat.mul_comm]; exact hq
        · intro p hp
          rcases List.mem_cons.mp hp with e | e
          · rw [e]; exact h.prime_of_dvd hm hdvd
          · exact hprime p e
        · exact List.Chain.cons (le_refl f) hchain
      · obtain ⟨hle, hinv⟩ := h.increment hm hdvd
        have hfuel2 : 2 * m + 1 ≤ fuel + min (f + 1) m := by
          omega
        obtain ⟨out, hrun, hprod, hprime, hchain⟩ := ih m (f + 1) sent hinv hfuel2
        refine ⟨out, ?_, hprod, hprime, ?_⟩
        · have hb := h.lt_bound
          simp only [DecomposeLoop,
            DecomposeBody_increment m f sent hm h2 (by omega) hdvd]
          exact hrun
        · cases hchain with
          | nil => exact List.Chain.nil
          | cons hr hc => exact List.Chain.cons (by omega) hc

/-- The run of `Decompose` on a request number `n > 1` in the int32 range. -/
theorem Decompose_spec (n : ℕ) (h1 : 1 < n) (h2 : n < 2147483648) (fuel : ℕ)
    (hfuel : 2 * n ≤ fuel) :
    ∃ out : List ℕ,
      Decompose fuel (n : Int) = .returned (out.map (fun p : ℕ => (p : Int))) ∧
      out.prod = n ∧ (∀ p ∈ out, p.Prime) ∧ out.Sorted (· ≤ ·) := by
  obtain ⟨out, hrun, hprod, hprime, hchain⟩ :=
    DecomposeLoop_spec fuel n 2 [] (DecomposeInv_init (by omega) h2) (by omega)
  refine ⟨out, by simpa [Decompose, DecomposeInit] using hrun, hprod, hprime, ?_⟩
  exact (List.pairwise_cons.mp (List.chain_iff_pairwise.mp hchain)).2


/-- The invariant holds at the start of every iteration of the loop. -/
theorem DecomposeIter_inv (k : ℕ) : ∀ (m f : ℕ) (sent : List Int) (s : DecomposeState),
    DecomposeInv m f → DecomposeIter k ⟨m, f, sent⟩ = some s →
    ∃ a b : ℕ, s.number = (a : Int) ∧ s.factor = (b : Int) ∧ DecomposeInv a b := by
  induction k with
  | zero =>
    intro m f sent s h hs
    simp only [DecomposeIter, Option.some.injEq] at hs
    exact ⟨m, f, by rw [← hs], by rw [← hs], h⟩
  | succ k ih =>
    intro m f sent s h hs
    have h2 := h.two_le
    rcases Nat.eq_or_lt_of_le h.one_le with hm | hm
    · have hexit : DecomposeBody ⟨(m : Int), (f : Int), sent⟩ = .exit :=
        DecomposeBody_exit _ (by simp only []; omega)
      simp [DecomposeIter, hexit] at hs
    · by_cases hdvd : f ∣ m
      · simp only [DecomposeIter, DecomposeBody_divide m f sent hm h2 h.lt_bound hdvd] at hs
        exact ih _ _ _ s (h.divide hm hdvd) hs
      · obtain ⟨hle, hinv⟩ := h.increment hm hdvd
        have hb := h.lt_bound
        simp only [DecomposeIter,
          DecomposeBody_increment m f sent hm h2 (by omega) hdvd] at hs
        exact ih _ _ _ s hinv hs

/-- A run of the loop that returns has left the loop at the start of some
iteration `k`, below the fuel, with the sent messages of that state. -/
theorem DecomposeLoop_returned (fuel : ℕ) : ∀ (s : DecomposeState) (out : List Int),
    DecomposeLoop fuel s = .returned out →
    ∃ k t, k < fuel ∧ DecomposeIter k s = some t ∧ DecomposeBody t = .exit ∧ t.sent = out := by
  induction fuel with
  | zero => intro s out h; simp [DecomposeLoop] at h
  | succ fuel ih =>
    intro s out h
    cases hb : DecomposeBody s with
    | next t =>
      simp only [DecomposeLoop, hb] at h
      obtain ⟨k, u, hk, hiter, hexit, hsent⟩ := ih t out h
      exact ⟨k + 1, u, by omega, by simp only [DecomposeIter, hb]; exact hiter, hexit, hsent⟩
    | exit =>
      simp only [DecomposeLoop, hb, Outcome.returned.injEq] at h
      exact ⟨0, s, by omega, rfl, hb, h⟩
    | divideByZero => simp [DecomposeLoop, hb] at h

/-- C1: for every int32 request number `n > 1` the handler returns (given fuel
`2 * n`) after sending factors whose product is exactly `n`, each of them at
least 2. -/
theorem Decompose_product (n : Int) (h1 : 1 < n) (h2 : n ≤ 2147483647) (fuel : ℕ)
    (hfuel : 2 * n.toNat ≤ fuel) :
    ∃ sent, Decompose fuel n = .returned sent ∧ sent.prod = n ∧ ∀ x ∈ sent, 2 ≤ x := by
  obtain ⟨out, hrun, hprod, hprime, -⟩ :=
    Decompose_spec n.toNat (by omega) (by omega) fuel hfuel
  have hn : ((n.toNat : ℕ) : Int) = n := Int.toNat_of_nonneg (by omega)
  rw [hn] at hrun
  refine ⟨_, hrun, ?_, ?_⟩
  · have := @Nat.cast_list_prod Int _ out
    rw [hprod, hn] at this
    exact this.symm
  · intro x hx
    obtain ⟨p, hp, rfl⟩ := List.mem_map.mp hx
    exact_mod_cast (hprime p hp).two_le

/-- C7: for every request number `n ≤ 1` the handler sends nothing and returns a
nil error at the first evaluation of the loop condition. -/
theorem Decompose_le_one (n : Int) (h : n ≤ 1) (fuel : ℕ) (hfuel : 0 < fuel) :
    Decompose fuel n = .returned [] := by
  obtain ⟨fuel, rfl⟩ := Nat.exists_eq_succ_of_ne_zero (by omega : fuel ≠ 0)
  have hexit : DecomposeBody (DecomposeInit n) = .exit := DecomposeBody_exit _ h
  simp only [Decompose, DecomposeLoop, hexit]
  rfl

/-- C8: for every int32 request number the loop terminates. At the start of
every iteration that enters the body, `2 ≤ factor ≤ number`, so the division
has a non-zero divisor and `factor++` stays in int32; the loop is left after at
most `2 * n` iterations, with `number = 1` when `n > 1` and at once when
`n ≤ 1`; with fuel `2 * n + 1` the handler returns. -/
theorem Decompose_terminates (n : Int) (hn : isInt32 n) :
    (∀ k s, DecomposeIter k (DecomposeInit n) = some s → 1 < s.number →
      2 ≤ s.factor ∧ s.factor ≤ s.number ∧ isInt32 s.number ∧
      (Int.tmod s.number s.factor ≠ 0 →
        s.factor + 1 ≤ s.number ∧ wrap32 (s.factor + 1) = s.factor + 1) ∧
      DecomposeBody s ≠ .divideByZero) ∧
    (∃ k s, k ≤ 2 * n.toNat ∧ DecomposeIter k (DecomposeInit n) = some s ∧
      DecomposeBody s = .exit ∧ (1 < n → s.number = 1) ∧ (n ≤ 1 → k = 0)) ∧
    (∀ fuel, 2 * n.toNat + 1 ≤ fuel → ∃ sent, Decompose fuel n = .returned sent) := by
  unfold isInt32 at hn
  rcases le_or_lt n 1 with hle | hlt
  · have hexit : DecomposeBody (DecomposeInit n) = .exit := DecomposeBody_exit _ hle
    refine ⟨?_, ⟨0, DecomposeInit n, by omega, rfl, hexit, fun h => by omega, fun _ => rfl⟩, ?_⟩
    · intro k s hs hnum
      cases k with
      | zero =>
        simp only [DecomposeIter, Option.some.injEq] at hs
        rw [← hs] at hnum
        simp only [DecomposeInit] at hnum
        omega
      | succ k => simp [DecomposeIter, hexit] at hs
    · intro fuel hfuel
      obtain ⟨fuel, rfl⟩ := Nat.exists_eq_succ_of_ne_zero (by omega : fuel ≠ 0)
      exact ⟨[], by simp only [Decompose, DecomposeLoop, hexit]; rfl⟩
  · have hcast : ((n.toNat : ℕ) : Int) = n := Int.toNat_of_nonneg (by omega)
    have hinit : DecomposeInv n.toNat 2 := DecomposeInv_init (by omega) (by omega)
    have hstate : DecomposeInit n = ⟨((n.toNat : ℕ) : Int), ((2 : ℕ) : Int), []⟩ := by
      rw [hcast]; rfl
    refine ⟨?_, ?_, ?_⟩
    · intro k s hs hnum
      rw [hstate] at hs
      obtain ⟨a, b, ha, hb, hinv⟩ := DecomposeIter_inv k _ _ _ s hinit hs
      have ha1 : 1 < a := by rw [ha] at hnum; exact_mod_cast hnum
      have hba := hinv.factor_le ha1
      have hb2 := hinv.two_le
      have hbound := hinv.lt_bound
      have hs_eq : s = ⟨(a : Int), (b : Int), s.sent⟩ := by
        cases s; simp only [DecomposeState.mk.injEq] at *; exact ⟨ha, hb, trivial⟩
      refine ⟨by rw [hb]; exact_mod_cast hb2, by rw [ha, hb]; exact_mod_cast hba,
        by rw [ha]; unfold isInt32; omega, ?_, ?_⟩
      · intro hmod
        have hdvd : ¬ b ∣ a := by
          intro hd
          apply hmod
          rw [ha, hb, ← Int.ofNat_tmod, Nat.mod_eq_zero_of_dvd hd]; rfl
        obtain ⟨hle, -⟩ := hinv.increment ha1 hdvd
        rw [ha, hb]
        refine ⟨by exact_mod_cast hle, wrap32_of_isInt32 (by unfold isInt32; omega)⟩
      · rw [hs_eq]
        by_cases hdvd : b ∣ a
        · rw [DecomposeBody_divide a b s.sent ha1 hb2 hbound hdvd]; simp
        · have := (hinv.increment ha1 hdvd).1
          rw [DecomposeBody_increment a b s.sent ha1 hb2 (by omega) hdvd]; simp
    · obtain ⟨out, hrun, -⟩ := Decompose_spec n.toNat (by omega) (by omega) (2 * n.toNat) (le_refl _)
      rw [hcast] at hrun
      obtain ⟨k, t, hk, hiter, hexit, -⟩ := DecomposeLoop_returned _ _ _ hrun
      refine ⟨k, t, by omega, hiter, hexit, ?_, fun h => by omega⟩
      intro _
      rw [hstate] at hiter
      obtain ⟨a, b, ha, hb, hinv⟩ := DecomposeIter_inv k _ _ _ t hinit hiter
      have h1 := hinv.one_le
      by_contra hne
      have ha1 : 1 < a := by
        rcases Nat.eq_or_lt_of_le h1 with e | e
        · exact absurd (by rw [ha, ← e]; rfl) hne
        · exact e
      have hb2 := hinv.two_le
      have hbound := hinv.lt_bound
      have hs_eq : t = ⟨(a : Int), (b : Int), t.sent⟩ := by
        cases t; simp only [DecomposeState.mk.injEq] at *; exact ⟨ha, hb, trivial⟩
      rw [hs_eq] at hexit
      by_cases hdvd : b ∣ a
      · rw [DecomposeBody_divide a b t.sent ha1 hb2 hbound hdvd] at hexit; simp at hexit
      · have := (hinv.increment ha1 hdvd).1
        rw [DecomposeBody_increment a b t.sent ha1 hb2 (by omega) hdvd] at hexit; simp at hexit
    · intro fuel hfuel
      obtain ⟨out, hrun, -⟩ := Decompose_spec n.toNat (by omega) (by omega) fuel (by omega)
      rw [hcast] at hrun
      exact ⟨_, hrun⟩

/-- C9: for every int32 request number `n > 1` the sent sequence is the list of
prime factors of `n` with multiplicity in ascending order: every entry is a
prime, the list is non-decreasing, and it is `Nat.primeFactorsList n`. -/
theorem Decompose_primeFactors (n : Int) (h1 : 1 < n) (h2 : n ≤ 2147483647) (fuel : ℕ)
    (hfuel : 2 * n.toNat ≤ fuel) :
    ∃ ps : List ℕ, Decompose fuel n = .returned (ps.map (fun p : ℕ => (p : Int))) ∧
      (∀ p ∈ ps, p.Prime) ∧ ps.Sorted (· ≤ ·) ∧ ps = Nat.primeFactorsList n.toNat := by
  obtain ⟨out, hrun, hprod, hprime, hsorted⟩ :=
    Decompose_spec n.toNat (by omega) (by omega) fuel hfuel
  have hn : ((n.toNat : ℕ) : Int) = n := Int.toNat_of_nonneg (by omega)
  rw [hn] at hrun
  refine ⟨out, hrun, hprime, hsorted, ?_⟩
  exact List.eq_of_perm_of_sorted (Nat.primeFactorsList_unique hprod hprime) hsorted
    (Nat.primeFactorsList_sorted _)

/-- The request number 4780 of the client: the handler returns on fuel 9561. -/
theorem Decompose_terminates_witness : ∃ sent, Decompose 9561 4780 = .returned sent :=
  (Decompose_terminates 4780 (by decide)).2.2 9561 (by decide)

/-- The request number 4780 of the client: the sent list is its list of prime
factors. -/
theorem Decompose_primeFactors_witness :
    ∃ ps : List ℕ, Decompose 9560 4780 = .returned (ps.map (fun p : ℕ => (p : Int))) ∧
      (∀ p ∈ ps, p.Prime) ∧ ps.Sorted (· ≤ ·) ∧ ps = Nat.primeFactorsList (4780 : Int).toNat :=
  Decompose_primeFactors 4780 (by decide) (by decide) 9560 (by decide)

set_option maxRecDepth 100000 in
/-- The request number 4780 of the client gives 2, 2, 5, 239. -/
theorem Decompose_product_witness :
    Decompose 9560 4780 = .returned [2, 2, 5, 239] ∧
    ∃ sent, Decompose 9560 4780 = .returned sent ∧ sent.prod = 4780 ∧ ∀ x ∈ sent, 2 ≤ x :=
  ⟨by decide, Decompose_product 4780 (by decide) (by decide) 9560 (by decide)⟩

/-- A negative request number: nothing is sent. -/
theorem Decompose_le_one_witness : Decompose 1 (-7) = .returned [] :=
  Decompose_le_one (-7) (by decide) 1 (by decide)

/-! ## Proofs: `FindMaximum`, `TimesTen`, `CalculateWithDeadline`, interceptors -/

/-- The loop of `FindMaximum` on a closed stream, started with a running maximum
`mx` that is the larger of 0 and the elements seen so far, in a run where none
of the calls of `Send` it makes fails: it returns after sending the positive
running maxima of the rest, and ends with a running maximum `mx'` that bounds
the rest and is the last value sent, if any. -/
theorem FindMaximumLoop_spec (sendErr : Nat → Bool) (xs : List Int) :
    ∀ (earlier : List Int) (mx : Int) (sent : List Int),
    0 ≤ mx → (∀ y ∈ earlier, y ≤ mx) → (mx = 0 ∨ mx ∈ earlier) →
    (∀ i, sent.length ≤ i → i < sent.length + (positiveRunningMaxima earlier xs).length →
      sendErr i = false) →
    ∃ (out : List Int) (mx' : Int),
      FindMaximumLoop sendErr (closedStream xs) mx sent = .returned (sent ++ out) ∧
      out = positiveRunningMaxima earlier xs ∧ (∀ y ∈ xs, y ≤ mx') ∧
      ((out = [] ∧ mx' = mx) ∨ (out.getLast? = some mx' ∧ mx' ∈ xs ∧ mx < mx')) := by
  induction xs with
  | nil =>
    intro earlier mx sent _ _ _ _
    exact ⟨[], mx, by simp [closedStream, FindMaximumLoop], rfl, by simp, Or.inl ⟨rfl, rfl⟩⟩
  | cons x xs ih =>
    intro earlier mx sent h0 hle hmem hsend
    by_cases hx : x > mx
    · have hcond : (decide (0 < x) && earlier.all (fun y => decide (y < x))) = true := by
        rw [Bool.and_eq_true, decide_eq_true_eq, List.all_eq_true]
        refine ⟨by omega, fun y hy => ?_⟩
        have := hle y hy
        rw [decide_eq_true_eq]
        omega
      have hpm : positiveRunningMaxima earlier (x :: xs) =
          x :: positiveRunningMaxima (earlier ++ [x]) xs := by
        simp only [positiveRunningMaxima, hcond, if_true]
        rfl
      rw [hpm, List.length_cons] at hsend
      have hok : sendErr sent.length = false := hsend sent.length (le_refl _) (by omega)
      obtain ⟨out, mx', hrun, hout, hbound, hlast⟩ := ih (earlier ++ [x]) x (sent ++ [x])
        (by omega)
        (by
          intro y hy
          rcases List.mem_append.mp hy with h | h
          · have := hle y h; omega
          · rw [List.mem_singleton.mp h])
        (Or.inr (by simp))
        (by
          intro i h1 h2
          rw [List.length_append, List.length_singleton] at h1 h2
          exact hsend i (by omega) (by omega))
      refine ⟨x :: out, mx', ?_, ?_, ?_, Or.inr ?_⟩
      · have : closedStream (x :: xs) = RecvResult.msg x :: closedStream xs := rfl
        rw [this]
        simp only [FindMaximumLoop, if_pos hx, hok]
        rw [if_neg (by simp), hrun]
        simp
      · simp only [positiveRunningMaxima, hcond, if_true]
        rw [hout]
        rfl
      · intro y hy
        rcases List.mem_cons.mp hy with h | h
        · rcases hlast with ⟨-, e⟩ | ⟨-, -, e⟩
          · rw [h, e]
          · rw [h]; omega
        · exact hbound y h
      · rcases hlast with ⟨e1, e2⟩ | ⟨e1, e2, e3⟩
        · rw [e1, e2]
          exact ⟨rfl, List.mem_cons_self _ _, hx⟩
        · refine ⟨?_, List.mem_cons_of_mem _ e2, by omega⟩
          cases out with
          | nil => simp at e1
          | cons o os => rw [List.getLast?_cons_cons]; exact e1
    · have hcond : (decide (0 < x) && earlier.all (fun y => decide (y < x))) = false := by
        rw [Bool.and_eq_false_iff]
        rcases hmem with h | h
        · left
          rw [decide_eq_false_iff_not]
          omega
        · right
          rw [List.all_eq_false]
          exact ⟨mx, h, by rw [decide_eq_true_eq]; omega⟩
      have hpm : positiveRunningMaxima earlier (x :: xs) =
          positiveRunningMaxima (earlier ++ [x]) xs := by
        simp only [positiveRunningMaxima, hcond]
        rfl
      rw [hpm] at hsend
      obtain ⟨out, mx', hrun, hout, hbound, hlast⟩ := ih (earlier ++ [x]) mx sent h0
        (by
          intro y hy
          rcases List.mem_append.mp hy with h | h
          · exact hle y h
          · rw [List.mem_singleton.mp h]; omega)
        (by
          rcases hmem with h | h
          · exact Or.inl h
          · exact Or.inr (List.mem_append_left _ h))
        hsend
      refine ⟨out, mx', ?_, ?_, ?_, ?_⟩
      · have : closedStream (x :: xs) = RecvResult.msg x :: closedStream xs := rfl
        rw [this]
        simp only [FindMaximumLoop, if_neg hx]
        exact hrun
      · simp only [positiveRunningMaxima, hcond]
        rw [hout]
        rfl
      · intro y hy
        rcases List.mem_cons.mp hy with h | h
        · rcases hlast with ⟨-, e⟩ | ⟨-, -, e⟩
          · rw [h, e]; omega
          · rw [h]; omega
        · exact hbound y h
      · rcases hlast with ⟨e1, e2⟩ | ⟨e1, e2, e3⟩
        · exact Or.inl ⟨e1, e2⟩
        · exact Or.inr ⟨e1, List.mem_cons_of_mem _ e2, e3⟩

/-- C10: on every input sequence, in a run where every call of `stream.Send`
that the handler makes succeeds, `FindMaximum` sends exactly the elements that
are greater than 0 and greater than every earlier element, in input order, and
returns; it sends nothing when no element is positive, and when some element is
positive the last value sent is the maximum of the input. -/
theorem FindMaximum_positive_maxima (sendErr : Nat → Bool) (xs : List Int)
    (hsend : ∀ i, i < (positiveRunningMaxima [] xs).length → sendErr i = false) :
    FindMaximum sendErr (closedStream xs) = .returned (positiveRunningMaxima [] xs) ∧
    ((∀ x ∈ xs, x ≤ 0) → FindMaximum sendErr (closedStream xs) = .returned []) ∧
    ((∃ x ∈ xs, 0 < x) →
      ∃ m, (positiveRunningMaxima [] xs).getLast? = some m ∧ m ∈ xs ∧ ∀ y ∈ xs, y ≤ m) := by
  obtain ⟨out, mx', hrun, hout, hbound, hlast⟩ :=
    FindMaximumLoop_spec sendErr xs [] 0 [] (le_refl 0) (by simp) (Or.inl rfl)
      (by
        intro i _ h2
        rw [List.length_nil, Nat.zero_add] at h2
        exact hsend i h2)
  have hrun2 : FindMaximum sendErr (closedStream xs) = .returned out := by
    simpa [FindMaximum] using hrun
  refine ⟨by rw [hrun2, hout], ?_, ?_⟩
  · intro hall
    rcases hlast with ⟨e, -⟩ | ⟨-, e2, e3⟩
    · rw [hrun2, e]
    · have := hall mx' e2
      omega
  · rintro ⟨x, hx, hpos⟩
    rcases hlast with ⟨-, e⟩ | ⟨e1, e2, -⟩
    · have := hbound x hx
      omega
    · exact ⟨mx', by rw [← hout]; exact e1, e2, hbound⟩

/-- The numbers of the client, with no failing `Send`, give 1, 5, 53, 532; an
input without a positive element gives nothing, whatever `Send` would do. -/
theorem FindMaximum_positive_maxima_witness :
    FindMaximum (fun _ => false) (closedStream [1, 5, 2, 53, 532, 64]) =
      .returned [1, 5, 53, 532] ∧
    FindMaximum (fun _ => true) (closedStream [-4, 0, -2]) = .returned [] :=
  ⟨(FindMaximum_positive_maxima (fun _ => false) [1, 5, 2, 53, 532, 64] (fun _ _ => rfl)).1,
   (FindMaximum_positive_maxima (fun _ => true) [-4, 0, -2]
      (fun i h => by simp [positiveRunningMaxima] at h)).2.1 (by decide)⟩

/-- C2: on the input `-1` the handler sends nothing and returns, whatever a
`Send` would do, although `-1` is a new running maximum of that input. -/
theorem FindMaximum_misses_nonpositive :
    (∀ sendErr : Nat → Bool, FindMaximum sendErr (closedStream [-1]) = .returned []) ∧
    newRunningMaxima [] [-1] = [-1] :=
  ⟨fun _ => rfl, by decide⟩

/-- C3: when `ctx.Err()` is `context.DeadlineExceeded` after the simulated work,
the handler returns the sum 7 of the request (3, 4) with a nil error; when it is
`context.Canceled`, the handler returns a Canceled error and no result. -/
theorem CalculateWithDeadline_deadlineExceeded :
    CalculateWithDeadline add32 ContextErr.DeadlineExceeded { A := 3, B := 4 } =
      (some { Result := 7 }, none) ∧
    CalculateWithDeadline add32 ContextErr.Canceled { A := 3, B := 4 } =
      (none, some { code := Code.Canceled, msg := "The client has canceled the request" }) := by
  decide

/-- C4: for every int32 `n`, `TimesTen` returns a response with a nil error; the
value is the int32 that is congruent to `n * 10` modulo `2 ^ 32`, and it is
`n * 10` itself when `-214748364 ≤ n ≤ 214748364`. -/
theorem TimesTen_value (ctx : ContextErr) (n : Int) (_hn : isInt32 n) :
    ∃ r, TimesTen ctx { Say := n } = (some { Say := r }, none) ∧ isInt32 r ∧
      (r - n * 10) % 4294967296 = 0 ∧
      (-214748364 ≤ n → n ≤ 214748364 → r = n * 10) := by
  refine ⟨wrap32 (n * 10), rfl, isInt32_wrap32 _, ?_, ?_⟩
  · unfold wrap32; omega
  · intro h1 h2
    exact wrap32_of_isInt32 (by unfold isInt32; omega)

/-- The request of the client: 100 gives 1000. -/
theorem TimesTen_value_witness :
    TimesTen ContextErr.nil { Say := 100 } = (some { Say := 1000 }, none) := by
  obtain ⟨r, h1, -, -, h4⟩ := TimesTen_value ContextErr.nil 100 (by decide)
  rw [h1, h4 (by decide) (by decide)]
  rfl

/-- C6: `LoggingInterceptor` returns exactly what the handler returns on the
given context and request and leaves the state as the handler left it, and it
invokes the handler once, with that context and request;
`LoggingStreamInterceptor` returns exactly the handler's error, invokes the
handler once, and the wrapped stream it passes has the `RecvMsg` of the
underlying stream. -/
theorem LoggingInterceptor_transparent {Ctx Req Info Resp Err σ Srv SInfo SCtx MD Msg : Type}
    (fmtReq : Req → String) (fmtResp : Resp → String) (fmtInfo : SInfo → String)
    (ctx : Ctx) (req : Req) (info : Info) (handler : Ctx → Req → σ → (Resp × Err) × σ)
    (srv : Srv) (stream : ServerStream SCtx MD Msg Err σ) (sinfo : SInfo)
    (shandler : Srv → ServerStream SCtx MD Msg Err σ → σ → Err × σ) (s : σ) :
    (LoggingInterceptor fmtReq fmtResp ctx req info handler s).1 = handler ctx req s ∧
    invocations (LoggingInterceptor fmtReq fmtResp ctx req info handler s).2 = [(ctx, req)] ∧
    (LoggingStreamInterceptor fmtInfo srv stream sinfo shandler s).1 =
      shandler srv (customServerStream stream) s ∧
    invocations (LoggingStreamInterceptor fmtInfo srv stream sinfo shandler s).2 =
      [(srv, customServerStream stream)] ∧
    (∀ (m : Msg) (t : σ), (customServerStream stream).RecvMsg m t = stream.RecvMsg m t) ∧
    customServerStream stream = stream :=
  ⟨rfl, rfl, rfl, rfl, fun _ _ => rfl, rfl⟩

/-! ## Proofs: `float32` and `ComputeAverage` -/

theorem roundHalfEven_intCast (z : Int) : roundHalfEven (z : ℚ) = z := by
  unfold roundHalfEven
  simp

theorem round32_of_scaled (q : ℚ) (N E : Int)
    (hE : E = max (Int.log 2 |q|) (-126) - 23) (hN : |q| / (2 : ℚ) ^ E = (N : ℚ))
    (hN0 : N ≠ 0) (hlt : |q| < (2 : ℚ) ^ (128 : ℕ)) : round32 q = .fin q := by
  have hpos : (0 : ℚ) < (2 : ℚ) ^ E := zpow_pos (by norm_num) E
  have hv : (N : ℚ) * (2 : ℚ) ^ E = |q| := by
    rw [← hN]
    field_simp
  unfold round32
  simp only []
  rw [← hE, hN, roundHalfEven_intCast, if_neg hN0, hv, if_neg (not_le.mpr hlt)]
  congr 1
  split_ifs with h
  · rw [abs_of_neg h]; ring
  · rw [abs_of_nonneg (le_of_not_lt h)]

theorem round32_of_isFloat32 {q : ℚ} (h : isFloat32 q) (hq : q ≠ 0) : round32 q = .fin q := by
  obtain ⟨m, e, hm, he1, he2, rfl⟩ := h
  have hm0 : m ≠ 0 := by
    rintro rfl
    simp at hq
  have h2pos : ∀ k : Int, (0 : ℚ) < (2 : ℚ) ^ k := fun k => zpow_pos (by norm_num) k
  have habs : |(m : ℚ) * (2 : ℚ) ^ e| = ((|m| : Int) : ℚ) * (2 : ℚ) ^ e := by
    rw [abs_mul, abs_of_pos (h2pos e), Int.cast_abs]
  have hmpos : (1 : ℚ) ≤ ((|m| : Int) : ℚ) := by
    have : 1 ≤ |m| := Int.one_le_abs hm0
    exact_mod_cast this
  have hapos : (0 : ℚ) < ((|m| : Int) : ℚ) * (2 : ℚ) ^ e :=
    mul_pos (by linarith) (h2pos e)
  -- the binade of `|q|` is below `24 + e`
  have hlog : Int.log 2 (((|m| : Int) : ℚ) * (2 : ℚ) ^ e) < 24 + e := by
    have h1 := @Int.zpow_log_le_self ℚ _ _ 2 _ (by norm_num) hapos
    have h2 : ((|m| : Int) : ℚ) * (2 : ℚ) ^ e < (2 : ℚ) ^ (24 + e) := by
      rw [zpow_add₀ (by norm_num : (2 : ℚ) ≠ 0)]
      apply mul_lt_mul_of_pos_right _ (h2pos e)
      have : |m| < 2 ^ 24 := hm
      exact_mod_cast this
    have h3 : ((2 : ℕ) : ℚ) ^ Int.log 2 (((|m| : Int) : ℚ) * (2 : ℚ) ^ e) < (2 : ℚ) ^ (24 + e) :=
      lt_of_le_of_lt h1 h2
    by_contra hcon
    push_neg at hcon
    have h4 : (2 : ℚ) ^ (24 + e) ≤ (2 : ℚ) ^ Int.log 2 (((|m| : Int) : ℚ) * (2 : ℚ) ^ e) :=
      zpow_le_zpow_right₀ (by norm_num) hcon
    have h5 : (((2 : ℕ) : ℚ)) = (2 : ℚ) := by norm_num
    rw [h5] at h3
    linarith
  have hE : max (Int.log 2 (((|m| : Int) : ℚ) * (2 : ℚ) ^ e)) (-126) - 23 ≤ e := by
    omega
  obtain ⟨d, hd⟩ := Int.eq_ofNat_of_zero_le (sub_nonneg.mpr hE)
  have hlt : ((|m| : Int) : ℚ) * (2 : ℚ) ^ e < (2 : ℚ) ^ (128 : ℕ) := by
    have h1 : ((|m| : Int) : ℚ) < (2 : ℚ) ^ (24 : ℕ) := by
      have : |m| < 2 ^ 24 := hm
      exact_mod_cast this
    have h2 : (2 : ℚ) ^ e ≤ (2 : ℚ) ^ (104 : Int) := zpow_le_zpow_right₀ (by norm_num) he2
    calc ((|m| : Int) : ℚ) * (2 : ℚ) ^ e
        < (2 : ℚ) ^ (24 : ℕ) * (2 : ℚ) ^ e := mul_lt_mul_of_pos_right h1 (h2pos e)
      _ ≤ (2 : ℚ) ^ (24 : ℕ) * (2 : ℚ) ^ (104 : Int) :=
          mul_le_mul_of_nonneg_left h2 (by positivity)
      _ = (2 : ℚ) ^ (128 : ℕ) := by norm_num
  refine round32_of_scaled _ (|m| * 2 ^ d) _ rfl ?_ ?_ (by rw [habs]; exact hlt)
  · rw [habs, mul_div_assoc, ← zpow_sub₀ (by norm_num : (2 : ℚ) ≠ 0), hd]
    push_cast
    rw [zpow_natCast]
  · have : |m| ≠ 0 := abs_ne_zero.mpr hm0
    positivity


theorem Float32.add_ofExact {a q : ℚ} (h : isFloat32 (a + q)) :
    Float32.add (Float32.ofExact a) (Float32.ofExact q) = Float32.ofExact (a + q) := by
  unfold Float32.ofExact
  by_cases ha : a = 0
  · by_cases hq : q = 0
    · simp [ha, hq, Float32.add]
    · simp [ha, hq, Float32.add]
  · by_cases hq : q = 0
    · simp [ha, hq, Float32.add]
    · by_cases hs : a + q = 0
      · simp [ha, hq, hs, Float32.add]
      · simp [ha, hq, hs, Float32.add, round32_of_isFloat32 h hs]

theorem Float32.foldl_add_ofExact (qs : List ℚ) : ∀ a : ℚ,
    (∀ s ∈ runningSums a qs, isFloat32 s) →
    (qs.map Float32.ofExact).foldl Float32.add (Float32.ofExact a) =
      Float32.ofExact (a + qs.sum) := by
  induction qs with
  | nil => intro a _; simp
  | cons q qs ih =>
    intro a h
    simp only [runningSums, List.mem_cons, forall_eq_or_imp] at h
    rw [List.map_cons, List.foldl_cons, Float32.add_ofExact h.1, ih (a + q) h.2, List.sum_cons,
      add_assoc]

theorem roundHalfEven_ge_floor (x : ℚ) : ⌊x⌋ ≤ roundHalfEven x := by
  unfold roundHalfEven
  simp only []
  split_ifs <;> omega

/-- Dividing `+0` by the rounding of a number `q ≥ 1` gives `+0`: the rounding
is a positive number or `+Inf`. -/
theorem Float32.div_zero_round32 {q : ℚ} (hq : 1 ≤ q) :
    Float32.div (.zero false) (round32 q) = .zero false := by
  have hq0 : (0 : ℚ) < q := by linarith
  have hneg : ¬ (q < 0) := by linarith
  have hL : 0 ≤ Int.log 2 q := by
    rw [Int.log_of_one_le_right _ hq]
    exact Int.natCast_nonneg _
  have hmax : max (Int.log 2 q) (-126) = Int.log 2 q := by omega
  have hpos : (0 : ℚ) < (2 : ℚ) ^ (Int.log 2 q - 23) := zpow_pos (by norm_num) _
  have hle : (2 : ℚ) ^ (Int.log 2 q - 23) ≤ q := by
    have h1 : (2 : ℚ) ^ (Int.log 2 q - 23) ≤ (2 : ℚ) ^ (Int.log 2 q) :=
      zpow_le_zpow_right₀ (by norm_num) (by omega)
    have h2 := @Int.zpow_log_le_self ℚ _ _ 2 _ (by norm_num) hq0
    have h3 : (((2 : ℕ) : ℚ)) = (2 : ℚ) := by norm_num
    rw [h3] at h2
    linarith
  have hm : 1 ≤ roundHalfEven (q / (2 : ℚ) ^ (Int.log 2 q - 23)) := by
    have h1 : (1 : Int) ≤ ⌊q / (2 : ℚ) ^ (Int.log 2 q - 23)⌋ := by
      rw [Int.le_floor, Int.cast_one, le_div_iff₀ hpos, one_mul]
      exact hle
    exact le_trans h1 (roundHalfEven_ge_floor _)
  have hv : (0 : ℚ) < (roundHalfEven (q / (2 : ℚ) ^ (Int.log 2 q - 23)) : ℚ) *
      (2 : ℚ) ^ (Int.log 2 q - 23) := by
    apply mul_pos _ hpos
    exact_mod_cast (by omega : (0 : Int) < roundHalfEven (q / (2 : ℚ) ^ (Int.log 2 q - 23)))
  unfold round32
  simp only []
  rw [abs_of_pos hq0, hmax, if_neg (by omega)]
  split_ifs with h1
  · simp [Float32.div, hneg]
  · simp only [Float32.div, if_neg hneg]
    have : ¬ ((roundHalfEven (q / (2 : ℚ) ^ (Int.log 2 q - 23)) : ℚ) *
        (2 : ℚ) ^ (Int.log 2 q - 23) < 0) := by linarith
    simp [this]

/-- A count `k` from 1 to below `2 ^ 63` is a binary32 number as soon as some
non-zero binary32 number `S` has a binary32 quotient `S / k`: the odd part of
`k` divides the significand of `S`. -/
theorem isFloat32_count {S : ℚ} {k : ℕ} (hk1 : 1 ≤ k) (hk2 : k < 2 ^ 63) (hS : isFloat32 S)
    (hS0 : S ≠ 0) (hquot : isFloat32 (S / (k : ℚ))) : isFloat32 (k : ℚ) := by
  obtain ⟨m1, e1, hm1, -, -, hS1⟩ := hS
  obtain ⟨m2, e2, -, -, -, hS2⟩ := hquot
  have hkq : (k : ℚ) ≠ 0 := by exact_mod_cast (by omega : k ≠ 0)
  have hm10 : m1 ≠ 0 := by
    rintro rfl
    simp at hS1
    exact hS0 hS1
  obtain ⟨j, k', hodd, hkk⟩ := Nat.exists_eq_two_pow_mul_odd (by omega : k ≠ 0)
  -- the equation `m1 * 2 ^ e1 = k * m2 * 2 ^ e2` with both exponents made natural
  have heq : (m1 : ℚ) * (2 : ℚ) ^ e1 = (k : ℚ) * ((m2 : ℚ) * (2 : ℚ) ^ e2) := by
    rw [← hS1, ← hS2]
    field_simp
  obtain ⟨a, ha⟩ := Int.eq_ofNat_of_zero_le (sub_nonneg.mpr (min_le_left e1 e2))
  obtain ⟨b, hb⟩ := Int.eq_ofNat_of_zero_le (sub_nonneg.mpr (min_le_right e1 e2))
  have h2 : (2 : ℚ) ≠ 0 := by norm_num
  have he1 : (2 : ℚ) ^ e1 = (2 : ℚ) ^ (min e1 e2) * (2 : ℚ) ^ a := by
    rw [← zpow_natCast, ← zpow_add₀ h2, ← ha]
    congr 1
    ring
  have he2 : (2 : ℚ) ^ e2 = (2 : ℚ) ^ (min e1 e2) * (2 : ℚ) ^ b := by
    rw [← zpow_natCast, ← zpow_add₀ h2, ← hb]
    congr 1
    ring
  have hEpos : (2 : ℚ) ^ (min e1 e2) ≠ 0 := zpow_ne_zero _ h2
  have hint : m1 * 2 ^ a = (k : Int) * (m2 * 2 ^ b) := by
    have : (m1 : ℚ) * (2 : ℚ) ^ a = (k : ℚ) * ((m2 : ℚ) * (2 : ℚ) ^ b) := by
      rw [he1, he2] at heq
      have h3 : (2 : ℚ) ^ (min e1 e2) * ((m1 : ℚ) * (2 : ℚ) ^ a) =
          (2 : ℚ) ^ (min e1 e2) * ((k : ℚ) * ((m2 : ℚ) * (2 : ℚ) ^ b)) := by
        linear_combination heq
      exact mul_left_cancel₀ hEpos h3
    exact_mod_cast this
  have hdvd : k' ∣ m1.natAbs * 2 ^ a := by
    have h3 : ((k' : ℕ) : Int) ∣ m1 * 2 ^ a := by
      rw [hint, hkk]
      push_cast
      exact ⟨2 ^ j * (m2 * 2 ^ b), by ring⟩
    have h4 := Int.natAbs_dvd_natAbs.mpr h3
    rw [Int.natAbs_mul, Int.natAbs_pow, Int.natAbs_ofNat] at h4
    exact h4
  have hdvd2 : k' ∣ m1.natAbs :=
    Nat.Coprime.dvd_of_dvd_mul_right (Nat.Coprime.pow_right a hodd.coprime_two_right) hdvd
  have hk'lt : k' < 2 ^ 24 := by
    have h3 : k' ≤ m1.natAbs := Nat.le_of_dvd (Int.natAbs_pos.mpr hm10) hdvd2
    have h4 : m1.natAbs < 2 ^ 24 := by
      have : ((m1.natAbs : ℕ) : Int) < 2 ^ 24 := by rw [Int.natCast_natAbs]; exact hm1
      exact_mod_cast this
    omega
  have hj : j < 63 := by
    by_contra hcon
    have h3 : 2 ^ 63 ≤ 2 ^ j := Nat.pow_le_pow_right (by norm_num) (by omega)
    have h4 : 2 ^ j ≤ k := by
      rw [hkk]
      exact Nat.le_mul_of_pos_right _ hodd.pos
    omega
  refine ⟨(k' : Int), (j : Int), ?_, by omega, by omega, ?_⟩
  · rw [abs_of_nonneg (Int.natCast_nonneg _)]
    exact_mod_cast hk'lt
  · rw [hkk, zpow_natCast]
    push_cast
    ring

theorem Float32.div_ofExact_ofInt {S : ℚ} {k : ℕ} (hk1 : 1 ≤ k) (hk2 : k < 2 ^ 63)
    (hS : isFloat32 S) (h : isFloat32 (S / (k : ℚ))) :
    Float32.div (Float32.ofExact S) (Float32.ofInt (k : Int)) =
      Float32.ofExact (S / (k : ℚ)) := by
  have hk0 : (k : Int) ≠ 0 := by omega
  have hkq : (k : ℚ) ≠ 0 := by exact_mod_cast hk0
  unfold Float32.ofInt
  rw [if_neg hk0, Int.cast_natCast]
  by_cases hS0 : S = 0
  · rw [hS0, zero_div]
    have : Float32.ofExact 0 = .zero false := by simp [Float32.ofExact]
    rw [this]
    exact Float32.div_zero_round32 (by exact_mod_cast hk1)
  · have hkf := isFloat32_count hk1 hk2 hS hS0 h
    have hd : S / (k : ℚ) ≠ 0 := div_ne_zero hS0 hkq
    rw [round32_of_isFloat32 hkf hkq]
    unfold Float32.ofExact
    simp [hS0, hkq, Float32.div, round32_of_isFloat32 h hd]

theorem mem_runningSums_sum (qs : List ℚ) : ∀ a : ℚ, qs ≠ [] → a + qs.sum ∈ runningSums a qs := by
  induction qs with
  | nil => intro a h; exact absurd rfl h
  | cons q qs ih =>
    intro a _
    cases qs with
    | nil => simp [runningSums]
    | cons r rs =>
      have h := ih (a + q) (by simp)
      rw [List.sum_cons, ← add_assoc]
      exact List.mem_cons_of_mem _ h

theorem ComputeAverageLoop_waiting (xs : List Float32) : ∀ (sum : Float32) (count : Int),
    ComputeAverageLoop (xs.map RecvResult.msg) sum count = .waiting [] := by
  induction xs with
  | nil => intro sum count; rfl
  | cons x xs ih => intro sum count; simp only [List.map_cons, ComputeAverageLoop]; exact ih _ _

theorem ComputeAverageLoop_msgs (xs : List Float32) :
    ∀ (rest : List (RecvResult Float32)) (sum : Float32) (count : Int),
    0 ≤ count → count + xs.length < 9223372036854775808 →
    ComputeAverageLoop (xs.map RecvResult.msg ++ rest) sum count =
      ComputeAverageLoop rest (xs.foldl Float32.add sum) (count + xs.length) := by
  induction xs with
  | nil => intro rest sum count _ _; simp
  | cons x xs ih =>
    intro rest sum count h0 hlt
    simp only [List.length_cons, Nat.cast_add, Nat.cast_one] at hlt
    have hw : wrap64 (count + 1) = count + 1 := by unfold wrap64; omega
    simp only [List.map_cons, List.cons_append, ComputeAverageLoop, List.foldl_cons, hw,
      List.length_cons, Nat.cast_add, Nat.cast_one]
    have h := ih rest (Float32.add sum x) (count + 1) (by omega) (by omega)
    have e : count + 1 + (xs.length : Int) = count + ((xs.length : Int) + 1) := by ring
    rw [e] at h
    exact h

/-- The handler on a closed stream of fewer than `2 ^ 63` numbers. -/
theorem ComputeAverage_closedStream (xs : List Float32)
    (hk : (xs.length : Int) < 9223372036854775808) :
    ComputeAverage (closedStream xs) =
      .returned [Float32.div (xs.foldl Float32.add (.zero false)) (Float32.ofInt xs.length)] := by
  unfold ComputeAverage closedStream
  rw [ComputeAverageLoop_msgs xs _ _ 0 (le_refl 0) (by omega)]
  simp [ComputeAverageLoop]

/-- The sum `1 + 2 ^ (-24)` lies halfway between the binary32 neighbours `1` and
`1 + 2 ^ (-23)` and is rounded to the even one, `1`. -/
theorem round32_one_add_half_ulp : round32 (16777217 / 16777216) = .fin 1 := by
  have hq0 : (0 : ℚ) < 16777217 / 16777216 := by norm_num
  have hlog : Int.log 2 (16777217 / 16777216 : ℚ) = 0 := by
    rw [Int.log_of_one_le_right _ (by norm_num)]
    have : ⌊(16777217 / 16777216 : ℚ)⌋₊ = 1 := by
      rw [Nat.floor_eq_iff (by norm_num)]
      norm_num
    rw [this]
    simp
  have hulp : (2 : ℚ) ^ ((0 : Int) - 23) = 1 / 8388608 := by
    rw [show ((0 : Int) - 23) = -(23 : ℕ) by norm_num, zpow_neg, zpow_natCast]
    norm_num
  have hdiv : (16777217 / 16777216 : ℚ) / (1 / 8388608) = 16777217 / 2 := by norm_num
  have hfloor : ⌊(16777217 / 2 : ℚ)⌋ = 8388608 := by
    rw [Int.floor_eq_iff]
    norm_num
  have hround : roundHalfEven (16777217 / 2) = 8388608 := by
    unfold roundHalfEven
    simp only []
    rw [hfloor]
    norm_num
  unfold round32
  simp only []
  rw [abs_of_pos hq0, hlog, max_eq_left (by norm_num), hulp, hdiv, hround]
  norm_num

/-- C5 fails as worded: the inputs 1, 2 ^ (-24), 2 ^ (-24), -1 are binary32
numbers whose sum `2 ^ (-23)` and whose quotient by the count 4, `2 ^ (-25)`,
are binary32 numbers, yet the handler responds `+0`, not `2 ^ (-25)`. -/
theorem ComputeAverage_inexact_counterexample :
    (∀ q ∈ [(1 : ℚ), 1 / 16777216, 1 / 16777216, -1], isFloat32 q) ∧
    [(1 : ℚ), 1 / 16777216, 1 / 16777216, -1].sum = 1 / 8388608 ∧
    isFloat32 (1 / 8388608) ∧
    (1 / 8388608 : ℚ) / 4 = 1 / 33554432 ∧
    isFloat32 (1 / 33554432) ∧
    ComputeAverage (closedStream
      ([(1 : ℚ), 1 / 16777216, 1 / 16777216, -1].map Float32.ofExact)) =
        .returned [.zero false] ∧
    Float32.ofExact (1 / 33554432) ≠ .zero false := by
  have hpow : ∀ (n : ℕ), (2 : ℚ) ^ (-(n : Int)) = 1 / (2 : ℚ) ^ n := by
    intro n
    rw [zpow_neg, zpow_natCast, one_div]
  refine ⟨?_, by norm_num, ?_, by norm_num, ?_, ?_, ?_⟩
  · intro q hq
    simp only [List.mem_cons, List.mem_nil_iff, or_false] at hq
    rcases hq with rfl | rfl | rfl | rfl
    · exact ⟨1, 0, by norm_num, by norm_num, by norm_num, by norm_num⟩
    · exact ⟨1, -(24 : ℕ), by norm_num, by norm_num, by norm_num, by rw [hpow]; norm_num⟩
    · exact ⟨1, -(24 : ℕ), by norm_num, by norm_num, by norm_num, by rw [hpow]; norm_num⟩
    · exact ⟨-1, 0, by norm_num, by norm_num, by norm_num, by norm_num⟩
  · exact ⟨1, -(23 : ℕ), by norm_num, by norm_num, by norm_num, by rw [hpow]; norm_num⟩
  · exact ⟨1, -(25 : ℕ), by norm_num, by norm_num, by norm_num, by rw [hpow]; norm_num⟩
  · have hxs : [(1 : ℚ), 1 / 16777216, 1 / 16777216, -1].map Float32.ofExact =
        [.fin 1, .fin (1 / 16777216), .fin (1 / 16777216), .fin (-1)] := by
      simp [Float32.ofExact]
    have hsum : (1 : ℚ) + 1 / 16777216 = 16777217 / 16777216 := by norm_num
    have hfold : List.foldl Float32.add (.zero false)
        [.fin 1, .fin (1 / 16777216), .fin (1 / 16777216), .fin (-1)] = .zero false := by
      simp only [List.foldl_cons, List.foldl_nil, Float32.add, hsum]
      rw [if_neg (by norm_num), round32_one_add_half_ulp]
      simp only [Float32.add, hsum]
      rw [if_neg (by norm_num), round32_one_add_half_ulp]
      simp [Float32.add]
    rw [hxs, ComputeAverage_closedStream _ (by norm_num), hfold]
    have h4 : Float32.ofInt ((([.fin 1, .fin (1 / 16777216), .fin (1 / 16777216),
        .fin (-1)] : List Float32).length : ℕ) : Int) = .fin 4 := by
      have : isFloat32 (4 : ℚ) := ⟨1, 2, by norm_num, by norm_num, by norm_num, by norm_num⟩
      simp only [List.length_cons, List.length_nil, Float32.ofInt]
      norm_num
      exact round32_of_isFloat32 this (by norm_num)
    rw [h4]
    simp [Float32.div]
  · simp [Float32.ofExact]

/-- C5, amended: on `k` received numbers (`k` below `2 ^ 63`, the range of
`count`) the handler has sent nothing as long as no end-of-sequence has arrived,
and at end-of-sequence it sends exactly one response, the float32 quotient of
the sum accumulated in arrival order by `float32(k)`. When `k ≥ 1` and the
inputs are the exact values `qs` such that every sum accumulated in arrival
order and the quotient are binary32 numbers, the response is the exact
average. -/
theorem ComputeAverage_average (xs : List Float32) (hk : (xs.length : Int) < 9223372036854775808) :
    ComputeAverage (xs.map RecvResult.msg) = .waiting [] ∧
    ComputeAverage (closedStream xs) =
      .returned [Float32.div (xs.foldl Float32.add (.zero false)) (Float32.ofInt xs.length)] ∧
    (∀ qs : List ℚ, xs = qs.map Float32.ofExact → 1 ≤ qs.length →
      (∀ s ∈ runningSums 0 qs, isFloat32 s) →
      isFloat32 (qs.sum / (qs.length : ℚ)) →
      ComputeAverage (closedStream xs) =
        .returned [Float32.ofExact (qs.sum / (qs.length : ℚ))]) := by
  have hrun := ComputeAverage_closedStream xs hk
  refine ⟨ComputeAverageLoop_waiting xs _ _, hrun, ?_⟩
  intro qs hxs hlen hsums hquot
  rw [hrun, hxs]
  have hzero : Float32.zero false = Float32.ofExact 0 := by simp [Float32.ofExact]
  have hne : qs ≠ [] := by
    intro h
    rw [h] at hlen
    simp at hlen
  have hS : isFloat32 qs.sum := by
    have := hsums _ (mem_runningSums_sum qs 0 hne)
    rwa [zero_add] at this
  have hk2 : qs.length < 2 ^ 63 := by
    rw [hxs, List.length_map] at hk
    exact_mod_cast hk
  rw [hzero, Float32.foldl_add_ofExact qs 0 hsums, zero_add, List.length_map]
  exact congrArg (fun a => StreamOutcome.returned [a])
    (Float32.div_ofExact_ofInt hlen hk2 hS hquot)

/-- The numbers of the client: 1, 3, 5, 7 give the average 4. -/
theorem ComputeAverage_average_witness :
    ComputeAverage (closedStream [.fin 1, .fin 3, .fin 5, .fin 7]) = .returned [.fin 4] := by
  have h := (ComputeAverage_average [.fin 1, .fin 3, .fin 5, .fin 7] (by norm_num)).2.2
    [1, 3, 5, 7] (by simp [Float32.ofExact]) (by decide)
    (by
      intro s hs
      simp only [runningSums, List.mem_cons, List.mem_nil_iff, or_false] at hs
      rcases hs with rfl | rfl | rfl | rfl
      · exact ⟨1, 0, by norm_num, by norm_num, by norm_num, by norm_num⟩
      · exact ⟨4, 0, by norm_num, by norm_num, by norm_num, by norm_num⟩
      · exact ⟨9, 0, by norm_num, by norm_num, by norm_num, by norm_num⟩
      · exact ⟨16, 0, by norm_num, by norm_num, by norm_num, by norm_num⟩)
    ⟨4, 0, by norm_num, by norm_num, by norm_num, by norm_num⟩
  rw [h]
  norm_num [Float32.ofExact]

end GrpcLesson
